import Mathlib

/-!
Verification of the `xvalues` command-line utility (src/xvalues.c).

The C program is embedded shallowly: strings become `List Char`, `uint64_t`
values become `Nat` with explicit `% 2 ^ 64` where the C arithmetic can wrap,
and functions that print become functions producing structured output
(`Line`, `RunResult`).  The libc function `strtoull` (used with base 0) is
modelled after its C-standard specification: optional whitespace, optional
sign (negation modulo 2^64), automatic base detection (`0x`/`0X` followed by
a hex digit gives base 16, a leading `0` gives base 8, otherwise base 10),
longest valid digit run, saturation at `ULLONG_MAX` on overflow, and
`endptr` left at the start of the input when no digits were consumed.
-/

namespace Xvalues

/-- Multiplier constants, from the KB..EB macros in xvalues.c. -/
def KB : Nat := 1024

def MB : Nat := 1024 * KB

def GB : Nat := 1024 * MB

def TB : Nat := 1024 * GB

def PB : Nat := 1024 * TB

def EB : Nat := 1024 * PB

/-- `enum multipliers` from xvalues.c, as band indices. -/
def BYTE : Nat := 0

def KILO : Nat := 1

def MEGA : Nat := 2

def GIGA : Nat := 3

def TERA : Nat := 4

def PETA : Nat := 5

def EXI : Nat := 6

/-- One row of the static `data[]` table in xvalues.c. -/
structure BandInfo where
  suffix : Char
  width_hex : Nat
  width_dec : Nat
  multi : Nat
deriving DecidableEq

/-- The `data[]` table from xvalues.c, indexed by band (indices ≥ 6 give the
Exa row; the program only ever uses indices 0..6). -/
def data : Nat → BandInfo
  | 0 => ⟨'b', 4, 4, 1⟩
  | 1 => ⟨'K', 8, 7, KB⟩
  | 2 => ⟨'M', 8, 10, MB⟩
  | 3 => ⟨'G', 12, 13, GB⟩
  | 4 => ⟨'T', 16, 16, TB⟩
  | 5 => ⟨'P', 16, 19, PB⟩
  | _ => ⟨'E', 16, 20, EB⟩

/-- `get_multiplier` from xvalues.c. -/
def get_multiplier (v : Nat) : Nat :=
  if v < 1 * KB then BYTE
  else if v < 1 * MB then KILO
  else if v < 1 * GB then MEGA
  else if v < 1 * TB then GIGA
  else if v < 1 * PB then TERA
  else if v < 1 * EB then PETA
  else EXI

/-- C `isspace` in the default locale (used by `strtoull`). -/
def isCSpace (c : Char) : Bool :=
  c == ' ' || c == '\t' || c == '\n' || c == '\x0b' || c == '\x0c' || c == '\r'

/-- The numeric value of a digit character for the given base, as `strtoull`
accepts digits: `0`-`9` then letters (either case) valued 10.., only when
below the base. -/
def digitVal? (base : Nat) (c : Char) : Option Nat :=
  let d? : Option Nat :=
    if '0' ≤ c ∧ c ≤ '9' then some (c.toNat - '0'.toNat)
    else if 'a' ≤ c ∧ c ≤ 'z' then some (c.toNat - 'a'.toNat + 10)
    else if 'A' ≤ c ∧ c ≤ 'Z' then some (c.toNat - 'A'.toNat + 10)
    else none
  match d? with
  | some d => if d < base then some d else none
  | none => none

/-- Longest initial run of digits of the given base: their values, and the
unconsumed remainder. -/
def spanDigits (base : Nat) : List Char → List Nat × List Char
  | [] => ([], [])
  | c :: cs =>
    match digitVal? base c with
    | some d =>
      let p := spanDigits base cs
      (d :: p.1, p.2)
    | none => ([], c :: cs)

/-- The number denoted by a most-significant-first list of digit values. -/
def digitsVal (base : Nat) (ds : List Nat) : Nat :=
  ds.foldl (fun a d => base * a + d) 0

/-- Optional sign, as `strtoull` reads it. -/
def readSign (s : List Char) : Bool × List Char :=
  match s with
  | c :: t => if c = '-' then (true, t) else if c = '+' then (false, t) else (false, c :: t)
  | [] => (false, [])

/-- Whether the list starts with a hexadecimal digit. -/
def hasHexHead : List Char → Bool
  | c :: _ => (digitVal? 16 c).isSome
  | [] => false

/-- Base-0 auto-detection of `strtoull`: a `0x`/`0X` prefix followed by a hex
digit selects base 16 (and is consumed), a leading `0` selects base 8,
anything else selects base 10. -/
def detectBase (s : List Char) : Nat × List Char :=
  match s with
  | c0 :: c1 :: t =>
    if c0 = '0' then
      (if (c1 = 'x' ∨ c1 = 'X') ∧ hasHexHead t then (16, t) else (8, s))
    else (10, s)
  | [c0] => if c0 = '0' then (8, s) else (10, s)
  | [] => (10, [])

/-- The pre-digit phase of `strtoull`: whitespace, sign, base detection.
Returns (negated, base, remaining input). -/
def strtoullPre (s : List Char) : Bool × Nat × List Char :=
  let s1 := s.dropWhile isCSpace
  let p := readSign s1
  let q := detectBase p.2
  (p.1, q.1, q.2)

/-- `ULLONG_MAX`. -/
def UMAX : Nat := 2 ^ 64 - 1

/-- `strtoull(s, &endptr, 0)`: returns the converted value and the unconsumed
tail (the `endptr` position).  On overflow the value saturates at
`ULLONG_MAX`; a minus sign negates modulo 2^64; if no digits are consumed the
result is 0 and `endptr` is the start of the input. -/
def strtoull (s : List Char) : Nat × List Char :=
  let pre := strtoullPre s
  let sp := spanDigits pre.2.1 pre.2.2
  if sp.1 = [] then (0, s)
  else
    let n := min (digitsVal pre.2.1 sp.1) UMAX
    (if pre.1 then (2 ^ 64 - n) % 2 ^ 64 else n, sp.2)

/-- The three parse failures of xvalues.c (in C they are `-1` returns with
distinct messages on stderr; `invalidSuffix` carries the reported offset
`ptr - s`). -/
inductive ParseError where
  | binaryTooLong
  | invalidBinaryDigit
  | invalidSuffix (pos : Nat)
deriving DecidableEq

/-- The band index the suffix switch in `get_value` multiplies by, for the
twelve accepted suffix characters. -/
def suffixIndex (c : Char) : Option Nat :=
  if c = 'K' ∨ c = 'k' then some KILO
  else if c = 'M' ∨ c = 'm' then some MEGA
  else if c = 'G' ∨ c = 'g' then some GIGA
  else if c = 'T' ∨ c = 't' then some TERA
  else if c = 'P' ∨ c = 'p' then some PETA
  else if c = 'E' ∨ c = 'e' then some EXI
  else none

/-- The binary-literal test in `get_value`: length > 2 and a `0b`/`0B`
prefix. -/
def isBinaryArg (s : List Char) : Bool :=
  match s with
  | c0 :: c1 :: _ :: _ => c0 == '0' && (c1 == 'b' || c1 == 'B')
  | _ => false

/-- The loop of `parse_binary`, processing characters from the last towards
index 2, `mask` doubling each step.  (The C `*v |= mask` sets a bit strictly
above every bit already in `*v`, so it coincides with addition.) -/
def pbLoop : List Char → Nat → Nat → Except ParseError Nat
  | [], _, v => .ok v
  | c :: cs, mask, v =>
    if c = '1' then pbLoop cs (2 * mask) (v + mask)
    else if c = '0' then pbLoop cs (2 * mask) v
    else .error .invalidBinaryDigit

/-- `parse_binary` from xvalues.c: rejects strings longer than 66 characters,
then reads the characters after the two prefix characters as bits,
least-significant last. -/
def parse_binary (s : List Char) : Except ParseError Nat :=
  if s.length > 66 then .error .binaryTooLong
  else pbLoop (s.drop 2).reverse 1 0

/-- `get_value` from xvalues.c: binary literals go to `parse_binary`;
otherwise `strtoull` parses a prefix and at most one suffix character is
examined — a magnitude letter multiplies (modulo 2^64, as the C `uint64_t`
multiplication does), anything else is an error at offset `ptr - s`.
Characters after a valid suffix letter are not examined. -/
def get_value (s : List Char) : Except ParseError Nat :=
  if isBinaryArg s then parse_binary s
  else
    let p := strtoull s
    match p.2 with
    | [] => .ok p.1
    | c :: r =>
      match suffixIndex c with
      | some k => .ok (p.1 * (data k).multi % 2 ^ 64)
      | none => .error (.invalidSuffix (s.length - (r.length + 1)))

/-- The digit character for a value, as printf renders it (lowercase hex). -/
def digitChar (d : Nat) : Char :=
  if d < 10 then Char.ofNat ('0'.toNat + d) else Char.ofNat ('a'.toNat + (d - 10))

/-- Digit rendering loop (most significant first); `fuel ≥ n` makes it total. -/
def digitsLoop (base : Nat) : Nat → Nat → List Char → List Char
  | 0, _, acc => acc
  | fuel + 1, n, acc =>
    if n = 0 then acc
    else digitsLoop base fuel (n / base) (digitChar (n % base) :: acc)

/-- The digits printf's `%x` emits for `n` (lowercase, `"0"` for zero). -/
def toHexDigits (n : Nat) : List Char :=
  if n = 0 then ['0'] else digitsLoop 16 n n []

/-- The digits printf's `%u` emits for `n`. -/
def toDecDigits (n : Nat) : List Char :=
  if n = 0 then ['0'] else digitsLoop 10 n n []

/-- Left-padding to a minimum field width, as printf's width specifier. -/
def padLeft (c : Char) (w : Nat) (l : List Char) : List Char :=
  List.replicate (w - l.length) c ++ l

/-- The hex field printf emits in `print_number`: `0x` then `%0*` with the
width of the given band. -/
def format_hex (v width : Nat) : List Char :=
  '0' :: 'x' :: padLeft '0' (data width).width_hex (toHexDigits v)

/-- The decimal field printf emits in `print_number`: `%*` (space padding)
with the width of the given band. -/
def format_dec (v width : Nat) : List Char :=
  padLeft ' ' (data width).width_dec (toDecDigits v)

/-- The bit-field length chosen by `print_binary`. -/
def binDisplayLen (v : Nat) : Nat :=
  if v ≤ 0xf then 4
  else if v ≤ 0xff then 8
  else if v ≤ 0xffff then 16
  else if v ≤ 0xffffffff then 32
  else 64

/-- The character array `print_binary` fills: position `len-1` gets the least
significant bit, set bits are `'1'`, clear bits the fill character. -/
def binChars (zero_ch : Char) : Nat → Nat → List Char
  | 0, _ => []
  | l + 1, v => binChars zero_ch l (v / 2) ++ [if v % 2 = 1 then '1' else zero_ch]

/-- `print_binary` from xvalues.c (the bit string; the C function prints two
spaces before it). -/
def print_binary (zero_ch : Char) (v : Nat) : List Char :=
  binChars zero_ch (binDisplayLen v) v

/-- The inputs of the `%6.1f%c` in `print_size`: the value, its own band's
multiplier (the printed number is their exact quotient rounded to one
decimal), and the band's suffix character. -/
def print_size (v : Nat) : Nat × Nat × Char :=
  (v, (data (get_multiplier v)).multi, (data (get_multiplier v)).suffix)

/-- One output line of `print_number`: the padded hex and decimal fields, the
human-readable column as the exact ratio `sizeNum / sizeDen` (shown by C to
one decimal place) plus suffix, and the optional bit string. -/
structure Line where
  value : Nat
  hex : List Char
  dec : List Char
  sizeNum : Nat
  sizeDen : Nat
  sizeSuffix : Char
  bin : Option (List Char)
deriving DecidableEq

/-- `print_number` from xvalues.c. -/
def print_number (zero_ch : Char) (v width : Nat) (show_bin : Bool) : Line :=
  ⟨v, format_hex v width, format_dec v width,
   (print_size v).1, (print_size v).2.1, (print_size v).2.2,
   if show_bin then some (print_binary zero_ch v) else none⟩

/-- Observable result of a run: the exit status, the printed lines, and the
error reported on stderr, if any. -/
structure RunResult where
  exitCode : Nat
  output : List Line
  err : Option ParseError
deriving DecidableEq

/-- `print_string` from xvalues.c: parse and print, silently skipping on
parse failure. -/
def print_string (zero_ch : Char) (s : List Char) (width : Nat)
    (show_bin : Bool) : Option Line :=
  match get_value s with
  | .error _ => none
  | .ok v => some (print_number zero_ch v width show_bin)

/-- The first loop of `main`: parse every argument, fail on the first error,
otherwise accumulate the maximum band (`if (width < tmp) width = tmp`). -/
def scanWidth : Nat → List (List Char) → Except ParseError Nat
  | w, [] => .ok w
  | w, s :: rest =>
    match get_value s with
    | .error e => .error e
    | .ok v => scanWidth (max w (get_multiplier v)) rest

/-- The value-printing path of `main` (after mode-flag handling): first pass
computes the shared width (aborting with exit code 1 before any printing on
a parse error), second pass prints every argument at that width. -/
def vmain (show_bin : Bool) (zero_ch : Char) (vals : List (List Char)) :
    RunResult :=
  match scanWidth BYTE vals with
  | .error e => ⟨1, [], some e⟩
  | .ok width =>
    ⟨0, vals.filterMap (fun s => print_string zero_ch s width show_bin), none⟩

/-- The demonstration values of `print_all` (the C array ends with a 0
sentinel that stops the loop). -/
def all_values : List Nat :=
  [8, 16, 64, 128, 256, 512,
   1 * KB, 4 * KB, 16 * KB, 64 * KB,
   1 * MB, 16 * MB, 64 * MB, 256 * MB, 512 * MB,
   1 * GB, 4 * GB,
   1 * TB,
   1 * PB,
   1 * EB]

/-- `print_all` from xvalues.c: every demonstration value at Exa width. -/
def print_all (show_bin : Bool) (zero_ch : Char) : List Line :=
  all_values.map (fun v => print_number zero_ch v EXI show_bin)

/-- `main` from xvalues.c: a first argument whose first two characters are
`-b` (resp. `-B`) enables the binary column with fill `'.'` (resp. `'0'`);
with no value arguments the demonstration table is printed, otherwise the
two-pass value path runs. -/
def xmain (args : List (List Char)) : RunResult :=
  match args with
  | [] => ⟨0, print_all false ' ', none⟩
  | a :: rest =>
    if a.take 2 = ['-', 'b'] then
      (if rest = [] then ⟨0, print_all true '.', none⟩ else vmain true '.' rest)
    else if a.take 2 = ['-', 'B'] then
      (if rest = [] then ⟨0, print_all true '0', none⟩ else vmain true '0' rest)
    else vmain false ' ' (a :: rest)

/-! ### Evaluation lemmas for the band table -/

@[simp] lemma data_multi_0 : (data 0).multi = 1 := rfl

@[simp] lemma data_multi_1 : (data 1).multi = 1024 := rfl

@[simp] lemma data_multi_2 : (data 2).multi = 1048576 := rfl

@[simp] lemma data_multi_3 : (data 3).multi = 1073741824 := rfl

@[simp] lemma data_multi_4 : (data 4).multi = 1099511627776 := rfl

@[simp] lemma data_multi_5 : (data 5).multi = 1125899906842624 := rfl

@[simp] lemma data_multi_6 : (data 6).multi = 1152921504606846976 := rfl

/-- The classifier is monotone: a larger value never gets a smaller band. -/
lemma get_multiplier_mono {v w : Nat} (h : v ≤ w) :
    get_multiplier v ≤ get_multiplier w := by
  simp only [get_multiplier, KB, MB, GB, TB, PB, EB, BYTE, KILO, MEGA, GIGA,
    TERA, PETA, EXI]
  split_ifs <;> omega

/-- The chosen band's multiplier is the largest band multiplier that is
`≤ max v 1` (equivalently, `≤ v` for `v ≥ 1`, with `v = 0` giving Byte). -/
lemma get_multiplier_largest (v : Nat) :
    (data (get_multiplier v)).multi ≤ max v 1 ∧
      ∀ i : Fin 7, (data i.1).multi ≤ max v 1 →
        (data i.1).multi ≤ (data (get_multiplier v)).multi := by
  simp only [get_multiplier, KB, MB, GB, TB, PB, EB, BYTE, KILO, MEGA, GIGA,
    TERA, PETA, EXI]
  split_ifs with h1 h2 h3 h4 h5 h6 <;>
    refine ⟨by simp <;> omega, fun i hi => ?_⟩ <;>
    fin_cases i <;> simp_all <;> omega

/-- Claim C1 (amended): for 64-bit values, the classifier is monotone
non-decreasing, and the chosen band has the largest multiplier among the
seven bands that is `≤ max v 1` — i.e. the largest multiplier `≤ v` for
`v ≥ 1`, and Byte for `v = 0` (not `≤ v + 1` as originally stated: at
`v = 1023` the band is Byte although `1024 ≤ v + 1`). -/
theorem claim_c1 (v w : Nat) (_hv : v < 2 ^ 64) (_hw : w < 2 ^ 64)
    (hvw : v ≤ w) :
    get_multiplier v ≤ get_multiplier w ∧
      (data (get_multiplier v)).multi ≤ max v 1 ∧
      ∀ i : Fin 7, (data i.1).multi ≤ max v 1 →
        (data i.1).multi ≤ (data (get_multiplier v)).multi :=
  ⟨get_multiplier_mono hvw, (get_multiplier_largest v).1,
    (get_multiplier_largest v).2⟩

/-- Witness for C1 at `v = 1023`, `w = 1024`. -/
theorem claim_c1_witness : get_multiplier 1023 ≤ get_multiplier 1024 :=
  (claim_c1 1023 1024 (by decide) (by decide) (by decide)).1

/-- Counterexample to C1 as stated: at `v = 1023` the chosen band (Byte,
multiplier 1) does not carry the largest band multiplier `≤ v + 1 = 1024`;
the Kilo multiplier 1024 also satisfies the bound and is larger. -/
theorem claim_c1_counterexample :
    ¬ ((data (get_multiplier 1023)).multi ≤ 1023 + 1 ∧
        ∀ i : Fin 7, (data i.1).multi ≤ 1023 + 1 →
          (data i.1).multi ≤ (data (get_multiplier 1023)).multi) := by
  decide

/-! ### Binary literals (parse_binary) -/

/-- The value of a most-significant-first bit string (`'1'` bits count 1,
anything else 0). -/
def binVal (l : List Char) : Nat :=
  l.foldl (fun a c => 2 * a + (if c = '1' then 1 else 0)) 0

/-- Decidable equality on parse results, for concrete evaluations. -/
instance {ε α : Type} [DecidableEq ε] [DecidableEq α] :
    DecidableEq (Except ε α)
  | .ok x, .ok y =>
    decidable_of_iff (x = y) ⟨fun h => h ▸ rfl, fun h => by injection h⟩
  | .ok _, .error _ => .isFalse (fun h => Except.noConfusion h)
  | .error _, .ok _ => .isFalse (fun h => Except.noConfusion h)
  | .error e, .error f =>
    decidable_of_iff (e = f) ⟨fun h => h ▸ rfl, fun h => by injection h⟩

/-- Peeling the seed out of the bit-value fold. -/
lemma binFold_seed (t : List Char) :
    ∀ A : Nat, t.foldl (fun a c => 2 * a + (if c = '1' then 1 else 0)) A =
      A * 2 ^ t.length + t.foldl (fun a c => 2 * a + (if c = '1' then 1 else 0)) 0 := by
  induction t with
  | nil => intro A; simp
  | cons c r ih =>
    intro A
    simp only [List.foldl_cons, List.length_cons]
    rw [ih (2 * A + (if c = '1' then 1 else 0)),
      ih (2 * 0 + (if c = '1' then 1 else 0))]
    ring

lemma binVal_cons (a : Char) (t : List Char) :
    binVal (a :: t) = (if a = '1' then 1 else 0) * 2 ^ t.length + binVal t := by
  simp only [binVal, List.foldl_cons]
  rw [binFold_seed t (2 * 0 + (if a = '1' then 1 else 0))]
  ring

/-- `pbLoop` over an appended list runs the two halves in sequence, the mask
scaled by the length of the first half. -/
lemma pbLoop_append (xs ys : List Char) :
    ∀ m v, pbLoop (xs ++ ys) m v =
      (pbLoop xs m v).bind (fun v' => pbLoop ys (2 ^ xs.length * m) v') := by
  induction xs with
  | nil => intro m v; simp [pbLoop, Except.bind]
  | cons a t ih =>
    intro m v
    simp only [List.cons_append, pbLoop, List.length_cons]
    split_ifs <;>
      simp [ih, Except.bind, pow_succ, mul_assoc, mul_comm, mul_left_comm]

/-- On a valid bit string the C loop computes the most-significant-first
value. -/
lemma pbLoop_valid : ∀ l : List Char, (∀ c ∈ l, c = '0' ∨ c = '1') →
    ∀ m v, pbLoop l.reverse m v = .ok (v + m * binVal l) := by
  intro l
  induction l with
  | nil => intro _ m v; simp [pbLoop, binVal]
  | cons a t ih =>
    intro hl m v
    have ha := hl a (by simp)
    have ht : ∀ c ∈ t, c = '0' ∨ c = '1' := fun c hc => hl c (by simp [hc])
    rw [List.reverse_cons, pbLoop_append, ih ht, binVal_cons]
    rcases ha with h | h <;> subst h <;>
      simp [pbLoop, Except.bind, List.length_reverse] <;> ring

/-- An invalid character anywhere makes the C loop fail with the
invalid-digit error. -/
lemma pbLoop_err : ∀ l : List Char, (∃ c ∈ l, ¬(c = '0' ∨ c = '1')) →
    ∀ m v, pbLoop l m v = .error .invalidBinaryDigit := by
  intro l
  induction l with
  | nil => intro hl; simp at hl
  | cons a t ih =>
    intro hl m v
    obtain ⟨c, hc, hbad⟩ := hl
    by_cases h1 : a = '1'
    · subst h1
      have hct : c ∈ t := by
        rcases List.mem_cons.1 hc with h | h
        · exact absurd (Or.inr h) hbad
        · exact h
      simp [pbLoop, ih ⟨c, hct, hbad⟩]
    · by_cases h0 : a = '0'
      · subst h0
        have hct : c ∈ t := by
          rcases List.mem_cons.1 hc with h | h
          · exact absurd (Or.inl h) hbad
          · exact h
        simp [pbLoop, h1, ih ⟨c, hct, hbad⟩]
      · simp [pbLoop, h1, h0]

/-- The C loop only ever returns a value or the invalid-digit error. -/
lemma pbLoop_shape (l : List Char) :
    ∀ m v, (∃ w, pbLoop l m v = .ok w) ∨
      pbLoop l m v = .error .invalidBinaryDigit := by
  induction l with
  | nil => intro m v; exact Or.inl ⟨v, rfl⟩
  | cons a t ih =>
    intro m v
    by_cases h1 : a = '1'
    · simpa [pbLoop, h1] using ih (2 * m) (v + m)
    · by_cases h0 : a = '0'
      · simpa [pbLoop, h1, h0] using ih (2 * m) v
      · exact Or.inr (by simp [pbLoop, h1, h0])

/-- Claim C3 (amended): for a `0b`/`0B` argument of length > 2, the parse
fails with `binaryTooLong` exactly when the length (prefix included) exceeds
66; it fails with `invalidBinaryDigit` exactly when the length is within the
limit *and* some character after the prefix is neither 0 nor 1 (the length
check runs first, so an over-long literal reports `binaryTooLong` even if it
also contains invalid characters); otherwise it returns the value of the
bits read most-significant-first after the prefix. -/
theorem claim_c3 (s : List Char) (h : isBinaryArg s = true) :
    (get_value s = .error .binaryTooLong ↔ 66 < s.length) ∧
    (get_value s = .error .invalidBinaryDigit ↔
      s.length ≤ 66 ∧ ∃ c ∈ s.drop 2, ¬(c = '0' ∨ c = '1')) ∧
    (s.length ≤ 66 ∧ (∀ c ∈ s.drop 2, c = '0' ∨ c = '1') →
      get_value s = .ok (binVal (s.drop 2))) := by
  have hgv : get_value s = parse_binary s := by
    simp [get_value, h]
  rw [hgv, parse_binary]
  by_cases hlen : s.length > 66
  · rw [if_pos hlen]
    refine ⟨by simp [hlen], ?_, fun hct => absurd hct.1 (by omega)⟩
    exact iff_of_false (fun hc => by simp at hc) (fun hc => absurd hc.1 (by omega))
  · rw [if_neg hlen]
    push_neg at hlen
    have hshape := pbLoop_shape (s.drop 2).reverse 1 0
    refine ⟨?_, ?_, ?_⟩
    · refine iff_of_false (fun hcontra => ?_) (by omega)
      rcases hshape with ⟨w, hw⟩ | he
      · rw [hw] at hcontra; exact Except.noConfusion hcontra
      · rw [he] at hcontra
        exact ParseError.noConfusion (Except.error.inj hcontra)
    · constructor
      · intro hres
        refine ⟨hlen, ?_⟩
        by_contra hno
        push_neg at hno
        have hall : ∀ c ∈ s.drop 2, c = '0' ∨ c = '1' := fun c hc => hno c hc
        rw [pbLoop_valid _ hall 1 0] at hres
        exact Except.noConfusion hres
      · rintro ⟨-, c, hc, hbad⟩
        exact pbLoop_err _ ⟨c, by simpa using hc, hbad⟩ 1 0
    · rintro ⟨-, hall⟩
      rw [pbLoop_valid _ hall 1 0]
      simp

/-- Witness for C3 at `"0b1010"`. -/
theorem claim_c3_witness :
    get_value ['0', 'b', '1', '0', '1', '0'] =
      .ok (binVal (['0', 'b', '1', '0', '1', '0'].drop 2)) :=
  (claim_c3 ['0', 'b', '1', '0', '1', '0'] (by decide)).2.2
    ⟨by decide, by decide⟩

/-- Counterexample to C3 as stated: `"0b"` followed by 65 copies of `'2'`
contains characters that are neither 0 nor 1, yet the parse fails with
`binaryTooLong` (the length check runs first), not `invalidBinaryDigit`. -/
theorem claim_c3_counterexample :
    (∃ c ∈ ('0' :: 'b' :: List.replicate 65 '2').drop 2, ¬(c = '0' ∨ c = '1')) ∧
    get_value ('0' :: 'b' :: List.replicate 65 '2') = .error .binaryTooLong := by
  decide

/-! ### The binary display (print_binary) -/

lemma binChars_length (zc : Char) : ∀ l v, (binChars zc l v).length = l := by
  intro l
  induction l with
  | zero => intro v; simp [binChars]
  | succ n ih => intro v; simp [binChars, ih]

lemma binChars_get (zc : Char) :
    ∀ l v i, i < l → (binChars zc l v).get? i =
      some (if v / 2 ^ (l - 1 - i) % 2 = 1 then '1' else zc) := by
  intro l
  induction l with
  | zero => intro v i hi; omega
  | succ n ih =>
    intro v i hi
    rw [binChars]
    rcases Nat.lt_or_ge i n with h | h
    · rw [List.get?_append (by simp [binChars_length, h]), ih (v / 2) i h]
      have hd : v / 2 / 2 ^ (n - 1 - i) = v / 2 ^ (n - i) := by
        rw [Nat.div_div_eq_div_mul]
        congr 1
        have : n - i = (n - 1 - i) + 1 := by omega
        rw [this, pow_succ]
        ring
      rw [hd]
      have : n + 1 - 1 - i = n - i := by omega
      rw [this]
    · have hin : i = n := by omega
      subst hin
      have hlen : (binChars zc i (v / 2)).length = i := binChars_length zc i _
      rw [List.get?_append_right (by omega)]
      simp [hlen]

/-- Claim C8: the binary display uses the smallest bit-length among
4/8/16/32/64 that can hold the value, renders set bits as `'1'` and clear
bits as the fill character (`'.'` for a leading `-b` argument, `'0'` for
`-B`), and `-b 5` prints `.1.1` while `-B 5` prints `0101`. -/
theorem claim_c8 (fill : Char) (v : Nat) (hv : v < 2 ^ 64) :
    binDisplayLen v ∈ [4, 8, 16, 32, 64] ∧
    v < 2 ^ binDisplayLen v ∧
    (∀ L ∈ [4, 8, 16, 32, 64], v < 2 ^ L → binDisplayLen v ≤ L) ∧
    (print_binary fill v).length = binDisplayLen v ∧
    (∀ i, i < binDisplayLen v →
      (print_binary fill v).get? i =
        some (if v / 2 ^ (binDisplayLen v - 1 - i) % 2 = 1 then '1' else fill)) ∧
    (xmain [['-', 'b'], ['5']]).output.map (fun l => l.bin) =
      [some ['.', '1', '.', '1']] ∧
    (xmain [['-', 'B'], ['5']]).output.map (fun l => l.bin) =
      [some ['0', '1', '0', '1']] := by
  refine ⟨?_, ?_, ?_, binChars_length fill (binDisplayLen v) v,
    fun i hi => binChars_get fill (binDisplayLen v) v i hi,
    by decide, by decide⟩ <;>
    simp only [binDisplayLen] <;> split_ifs <;> norm_num <;> omega

/-- Witness for C8 at `v = 5`, `.`-fill. -/
theorem claim_c8_witness :
    (xmain [['-', 'b'], ['5']]).output.map (fun l => l.bin) =
      [some ['.', '1', '.', '1']] :=
  (claim_c8 '.' 5 (by norm_num)).2.2.2.2.2.1

/-! ### Suffix handling (get_value on non-binary arguments) -/

/-- Unfolding `get_value` when `strtoull` leaves a suffix character that is
one of the twelve magnitude letters: the value is multiplied by that band's
multiplier modulo 2^64, and anything after the letter is ignored. -/
lemma get_value_suffix_some (s : List Char) (c : Char) (r : List Char)
    (k : Nat) (hbin : isBinaryArg s = false)
    (hrest : (strtoull s).2 = c :: r) (hk : suffixIndex c = some k) :
    get_value s = .ok ((strtoull s).1 * (data k).multi % 2 ^ 64) := by
  simp only [get_value, hbin, Bool.false_eq_true, if_false]
  rw [hrest]
  simp only [hk]

/-- Unfolding `get_value` when `strtoull` leaves an unrecognized suffix
character: the error reports the character's offset. -/
lemma get_value_suffix_none (s : List Char) (c : Char) (r : List Char)
    (hbin : isBinaryArg s = false) (hrest : (strtoull s).2 = c :: r)
    (hk : suffixIndex c = none) :
    get_value s = .error (.invalidSuffix (s.length - (r.length + 1))) := by
  simp only [get_value, hbin, Bool.false_eq_true, if_false]
  rw [hrest]
  simp only [hk]

/-- The band a suffix letter selects multiplies by the corresponding power
of 1024. -/
lemma suffix_multi {c : Char} {k : Nat} (h : suffixIndex c = some k) :
    (data k).multi = 1024 ^ k := by
  simp only [suffixIndex, KILO, MEGA, GIGA, TERA, PETA, EXI] at h
  split_ifs at h <;> simp only [Option.some.injEq] at h <;> subst h <;> decide

/-- Full consumption by `spanDigits` means every character was a digit. -/
lemma span_all {b : Nat} : ∀ l : List Char, (spanDigits b l).2 = [] →
    ∀ x ∈ l, (digitVal? b x).isSome := by
  intro l
  induction l with
  | nil => intro _ x hx; simp at hx
  | cons a t ih =>
    intro h x hx
    cases hda : digitVal? b a with
    | none => simp [spanDigits, hda] at h
    | some d =>
      simp only [spanDigits, hda] at h
      rcases List.mem_cons.1 hx with rfl | hxt
      · simp [hda]
      · exact ih h x hxt

/-- Appending a non-digit to a fully consumed digit run: the digits are
unchanged and the appended character is the remainder. -/
lemma span_append {b : Nat} (c : Char) (hc : digitVal? b c = none) :
    ∀ l : List Char, (spanDigits b l).2 = [] →
      spanDigits b (l ++ [c]) = ((spanDigits b l).1, [c]) := by
  intro l
  induction l with
  | nil => intro _; simp [spanDigits, hc]
  | cons a t ih =>
    intro h
    cases hda : digitVal? b a with
    | none => simp [spanDigits, hda] at h
    | some d =>
      simp only [spanDigits, hda] at h ⊢
      simp [ih h]

/-- `dropWhile` distributes over an append whose first part does not vanish. -/
lemma dropWhile_append_left (p : Char → Bool) :
    ∀ s t : List Char, s.dropWhile p ≠ [] →
      (s ++ t).dropWhile p = s.dropWhile p ++ t := by
  intro s
  induction s with
  | nil => intro t h; simp at h
  | cons a u ih =>
    intro t h
    by_cases hp : p a
    · simp only [List.cons_append, List.dropWhile_cons, hp, if_true] at h ⊢
      exact ih t h
    · simp [List.cons_append, List.dropWhile_cons, hp]

/-- `readSign` on a nonempty list distributes over append. -/
lemma readSign_append (a : Char) (u t : List Char) :
    readSign ((a :: u) ++ t) =
      ((readSign (a :: u)).1, (readSign (a :: u)).2 ++ t) := by
  simp only [readSign, List.cons_append]
  split_ifs <;> simp

/-- When the detected body is a fully consumed nonempty digit run, appending
one character changes neither the detected base nor the preceding prefix
consumption. -/
lemma detectBase_append (s2 : List Char) (c : Char)
    (hfull : (spanDigits (detectBase s2).1 (detectBase s2).2).2 = [])
    (hne : (spanDigits (detectBase s2).1 (detectBase s2).2).1 ≠ []) :
    detectBase (s2 ++ [c]) = ((detectBase s2).1, (detectBase s2).2 ++ [c]) := by
  cases s2 with
  | nil => simp [detectBase, spanDigits] at hne
  | cons c0 s2' =>
    cases s2' with
    | nil =>
      by_cases h0 : c0 = '0'
      · subst h0
        simp [detectBase, hasHexHead]
      · simp [detectBase, h0]
    | cons c1 t =>
      by_cases h0 : c0 = '0'
      · subst h0
        by_cases hcond : (c1 = 'x' ∨ c1 = 'X') ∧ hasHexHead t
        · obtain ⟨hx, hh⟩ := hcond
          cases t with
          | nil => simp [hasHexHead] at hh
          | cons d t' =>
            simp only [hasHexHead] at hh
            simp [detectBase, hx, hh, hasHexHead, List.cons_append]
        · have hbase : detectBase ('0' :: c1 :: t) = (8, '0' :: c1 :: t) := by
            simp [detectBase, hcond]
          rw [hbase] at hfull
          have hc1 : (digitVal? 8 c1).isSome :=
            span_all _ hfull c1 (by simp)
          have hc1x : ¬(c1 = 'x' ∨ c1 = 'X') := by
            rintro (rfl | rfl) <;> simp [digitVal?] at hc1
          simp [detectBase, hcond, hc1x, List.cons_append]
      · simp [detectBase, h0, List.cons_append]

/-- Central composition lemma: if `strtoull` consumes all of a nonempty `s`
and `c` is not a digit of the detected base, then on `s ++ [c]` it produces
the same value and stops exactly at `c`. -/
lemma strtoull_append_suffix (s : List Char) (c : Char)
    (hne : s ≠ []) (hfull : (strtoull s).2 = [])
    (hcd : digitVal? (strtoullPre s).2.1 c = none) :
    strtoull (s ++ [c]) = ((strtoull s).1, [c]) := by
  by_cases hds :
      (spanDigits (strtoullPre s).2.1 (strtoullPre s).2.2).1 = []
  · exfalso
    rw [strtoull] at hfull
    simp only [hds, if_pos] at hfull
    exact hne hfull
  · have hsp2 : (spanDigits (strtoullPre s).2.1 (strtoullPre s).2.2).2 = [] := by
      rw [strtoull] at hfull
      simp only [hds, if_neg, if_false] at hfull
      exact hfull
    have hs1 : s.dropWhile isCSpace ≠ [] := by
      intro hempty
      rw [strtoullPre, hempty] at hds hsp2
      simp [readSign, detectBase, spanDigits] at hds
    obtain ⟨a, u, hau⟩ := List.exists_cons_of_ne_nil hs1
    have e1 : (s ++ [c]).dropWhile isCSpace = s.dropWhile isCSpace ++ [c] :=
      dropWhile_append_left isCSpace s [c] hs1
    have e2 : readSign (s.dropWhile isCSpace ++ [c]) =
        ((readSign (s.dropWhile isCSpace)).1,
          (readSign (s.dropWhile isCSpace)).2 ++ [c]) := by
      rw [hau]; exact readSign_append a u [c]
    have hpre : strtoullPre s =
        ((readSign (s.dropWhile isCSpace)).1,
          (detectBase (readSign (s.dropWhile isCSpace)).2).1,
          (detectBase (readSign (s.dropWhile isCSpace)).2).2) := rfl
    rw [hpre] at hds hsp2 hcd
    have e3 : detectBase ((readSign (s.dropWhile isCSpace)).2 ++ [c]) =
        ((detectBase (readSign (s.dropWhile isCSpace)).2).1,
          (detectBase (readSign (s.dropWhile isCSpace)).2).2 ++ [c]) :=
      detectBase_append _ c hsp2 hds
    have e4 : spanDigits (detectBase (readSign (s.dropWhile isCSpace)).2).1
        ((detectBase (readSign (s.dropWhile isCSpace)).2).2 ++ [c]) =
        ((spanDigits (detectBase (readSign (s.dropWhile isCSpace)).2).1
          (detectBase (readSign (s.dropWhile isCSpace)).2).2).1, [c]) :=
      span_append c hcd _ hsp2
    rw [strtoull, strtoull, strtoullPre, strtoullPre, e1, e2, e3, e4]
    simp only [hds, if_neg, if_false]

/-- Appending one character to a fully consumed argument cannot create a
`0b`/`0B` binary argument (a `0b`-prefixed string is never fully consumed:
`strtoull` reads only the leading `0` as an octal digit). -/
lemma not_binary_of_full (s : List Char) (c : Char)
    (hfull : (strtoull s).2 = []) (hne : s ≠ []) :
    isBinaryArg (s ++ [c]) = false := by
  cases s with
  | nil => exact absurd rfl hne
  | cons c0 s' =>
    cases s' with
    | nil => rfl
    | cons c1 s'' =>
      by_cases hb : c0 = '0' ∧ (c1 = 'b' ∨ c1 = 'B')
      · exfalso
        obtain ⟨rfl, hb1⟩ := hb
        rcases hb1 with rfl | rfl
        · rw [show strtoull ('0' :: 'b' :: s'') = (0, 'b' :: s'') from rfl] at hfull
          simp at hfull
        · rw [show strtoull ('0' :: 'B' :: s'') = (0, 'B' :: s'') from rfl] at hfull
          simp at hfull
      · push_neg at hb
        cases s'' with
        | nil =>
          simp only [List.cons_append, List.nil_append, isBinaryArg]
          rcases eq_or_ne c0 '0' with rfl | h0
          · have h1 := hb rfl
            simp [beq_iff_eq, h1.1, h1.2]
          · simp [beq_iff_eq, h0]
        | cons c2 s3 =>
          simp only [List.cons_append, isBinaryArg]
          rcases eq_or_ne c0 '0' with rfl | h0
          · have h1 := hb rfl
            simp [beq_iff_eq, h1.1, h1.2]
          · simp [beq_iff_eq, h0]

/-- Claim C2 (amended): a fully parsed numeric literal followed by one
magnitude letter yields the parsed value multiplied by the letter's power of
1024, reduced modulo 2^64, identically for upper and lower case — provided
the letter is not itself a digit of the literal's base (after a hexadecimal
literal, `E`/`e` is consumed as a hex digit instead of acting as a suffix,
see the counterexample). -/
theorem claim_c2 (s : List Char) (c : Char) (k : Nat)
    (hne : s ≠ []) (hfull : (strtoull s).2 = [])
    (hk : suffixIndex c = some k)
    (hcd : digitVal? (strtoullPre s).2.1 c = none) :
    get_value (s ++ [c]) = .ok ((strtoull s).1 * 1024 ^ k % 2 ^ 64) := by
  have h1 := strtoull_append_suffix s c hne hfull hcd
  have h2 := not_binary_of_full s c hfull hne
  have h3 := get_value_suffix_some (s ++ [c]) c [] k h2 (by rw [h1]) hk
  rw [h3, h1, suffix_multi hk]

/-- Witness for C2: `parse("1K") = 1024`. -/
theorem claim_c2_witness : get_value (['1'] ++ ['K']) = .ok 1024 :=
  (claim_c2 ['1'] 'K' 1 (by decide) (by decide) (by decide) (by decide)).trans
    (by decide)

/-- Counterexample to C2 as stated: the numeric literal `0x1` followed by the
magnitude letter `E` parses as the hexadecimal literal `0x1E` = 30 — not as
`1 * 1024^6` — because `strtoull` absorbs `E` as a hex digit. -/
theorem claim_c2_counterexample : get_value ['0', 'x', '1', 'E'] = .ok 30 := by
  decide

/-- Claim C4 (amended): on a non-binary argument where `strtoull` leaves a
trailing remainder, a first trailing character that is not one of the six
magnitude letters fails with `invalidSuffix` reporting that character's
offset; but a first trailing character that *is* a magnitude letter
multiplies the value and every character after it is silently ignored (a
multi-character suffix such as `"1KB"` is *not* an error, contrary to the
original claim). -/
theorem claim_c4 (s : List Char) (c : Char) (r : List Char)
    (hbin : isBinaryArg s = false) (hrest : (strtoull s).2 = c :: r) :
    (suffixIndex c = none →
      get_value s = .error (.invalidSuffix (s.length - (r.length + 1)))) ∧
    ∀ k, suffixIndex c = some k →
      get_value s = .ok ((strtoull s).1 * (data k).multi % 2 ^ 64) :=
  ⟨fun hk => get_value_suffix_none s c r hbin hrest hk,
    fun k hk => get_value_suffix_some s c r k hbin hrest hk⟩

/-- Witness for C4: `parse("5X")` fails with `invalidSuffix` at offset 1. -/
theorem claim_c4_witness : get_value ['5', 'X'] = .error (.invalidSuffix 1) :=
  ((claim_c4 ['5', 'X'] 'X' [] (by decide) (by decide)).1 (by decide)).trans
    (by decide)

/-- Counterexample to C4 as stated: `"1KB"` has two trailing characters
after the numeric part, yet it parses successfully to 1024 — the `B` after
the valid suffix `K` is ignored, not rejected. -/
theorem claim_c4_counterexample : get_value ['1', 'K', 'B'] = .ok 1024 := by
  decide

/-- Claim C10: suffix multiplication is performed modulo 2^64 with no
overflow detection: any recognized suffix letter yields a successful parse
of `value * multiplier mod 2^64`, and in particular `parse("16E")` succeeds
and returns 0. -/
theorem claim_c10 (s : List Char) (c : Char) (r : List Char) (k : Nat)
    (hbin : isBinaryArg s = false) (hrest : (strtoull s).2 = c :: r)
    (hk : suffixIndex c = some k) :
    get_value s = .ok ((strtoull s).1 * (data k).multi % 2 ^ 64) ∧
    get_value ['1', '6', 'E'] = .ok 0 :=
  ⟨get_value_suffix_some s c r k hbin hrest hk, by decide⟩

/-- Witness for C10 at `"16E"`. -/
theorem claim_c10_witness : get_value ['1', '6', 'E'] = .ok 0 :=
  (claim_c10 ['1', '6', 'E'] 'E' [] 6 (by decide) (by decide) (by decide)).2

/-! ### The two-pass driver (vmain) -/

/-- A failing argument anywhere makes the first pass fail. -/
lemma scanWidth_err : ∀ (vals : List (List Char)) (w0 : Nat),
    (∃ s ∈ vals, ∃ e, get_value s = .error e) →
    ∃ e, scanWidth w0 vals = .error e := by
  intro vals
  induction vals with
  | nil => intro w0 h; simp at h
  | cons a t ih =>
    intro w0 h
    cases hga : get_value a with
    | error e => exact ⟨e, by simp [scanWidth, hga]⟩
    | ok v =>
      obtain ⟨s, hs, e, he⟩ := h
      rcases List.mem_cons.1 hs with rfl | hst
      · rw [hga] at he
        exact absurd he (by simp)
      · obtain ⟨e2, he2⟩ := ih (max w0 (get_multiplier v)) ⟨s, hst, e, he⟩
        exact ⟨e2, by simp [scanWidth, hga, he2]⟩

/-- If every argument parses, the first pass returns the running maximum of
the arguments' bands. -/
lemma scanWidth_ok {vals : List (List Char)} {vns : List Nat}
    (h : List.Forall₂ (fun s v => get_value s = .ok v) vals vns) :
    ∀ w0, scanWidth w0 vals =
      .ok (vns.foldl (fun w v => max w (get_multiplier v)) w0) := by
  induction h with
  | nil => intro w0; simp [scanWidth]
  | cons h1 h2 ih => intro w0; simp [scanWidth, h1, ih]

/-- If every argument parses, the first pass succeeds. -/
lemma scanWidth_ok_ex : ∀ (vals : List (List Char)) (w0 : Nat),
    (∀ s ∈ vals, ∃ v, get_value s = .ok v) →
    ∃ w, scanWidth w0 vals = .ok w := by
  intro vals
  induction vals with
  | nil => intro w0 _; exact ⟨w0, rfl⟩
  | cons a t ih =>
    intro w0 h
    obtain ⟨v, hv⟩ := h a (by simp)
    obtain ⟨w, hw⟩ :=
      ih (max w0 (get_multiplier v)) (fun s hs => h s (by simp [hs]))
    exact ⟨w, by simp [scanWidth, hv, hw]⟩

/-- The second pass prints exactly one line per argument, each at the shared
width. -/
lemma secondPass_map (zc : Char) (sb : Bool) (W : Nat)
    {vals : List (List Char)} {vns : List Nat}
    (h : List.Forall₂ (fun s v => get_value s = .ok v) vals vns) :
    vals.filterMap (fun s => print_string zc s W sb) =
      vns.map (fun v => print_number zc v W sb) := by
  induction h with
  | nil => simp
  | @cons a b l1 l2 h1 h2 ih =>
    have hps : print_string zc a W sb = some (print_number zc b W sb) := by
      simp [print_string, h1]
    simp only [List.filterMap_cons, hps, List.map_cons, ih]

/-- Claim C6: when all value arguments parse, every line is printed with
the hex/decimal fields padded to the field widths of the *maximum* band
across all arguments, while the human-readable column of each line is
computed from that line's *own* band (`sizeNum / sizeDen` is the value over
its own band's multiplier, shown by C to one decimal, with its own band's
suffix letter).  For inputs `1024` and `1048576` both lines use the Mega
widths (8 hex digits, 10 decimal digits) but show `1024/1024 = 1.0` with
suffix `K` and `1048576/1048576 = 1.0` with suffix `M` respectively. -/
theorem claim_c6 (sb : Bool) (zc : Char) (vals : List (List Char))
    (vns : List Nat)
    (hp : List.Forall₂ (fun s v => get_value s = .ok v) vals vns) :
    vmain sb zc vals =
      ⟨0, vns.map (fun v => print_number zc v
        (vns.foldl (fun w v => max w (get_multiplier v)) BYTE) sb), none⟩ ∧
    (∀ v W', (print_number zc v W' sb).sizeNum = v ∧
      (print_number zc v W' sb).sizeDen = (data (get_multiplier v)).multi ∧
      (print_number zc v W' sb).sizeSuffix = (data (get_multiplier v)).suffix ∧
      (print_number zc v W' sb).hex = format_hex v W' ∧
      (print_number zc v W' sb).dec = format_dec v W') ∧
    vmain false ' ' [['1', '0', '2', '4'], ['1', '0', '4', '8', '5', '7', '6']] =
      ⟨0, [⟨1024, ['0', 'x', '0', '0', '0', '0', '0', '4', '0', '0'],
            [' ', ' ', ' ', ' ', ' ', ' ', '1', '0', '2', '4'],
            1024, 1024, 'K', none⟩,
          ⟨1048576, ['0', 'x', '0', '0', '1', '0', '0', '0', '0', '0'],
            [' ', ' ', ' ', '1', '0', '4', '8', '5', '7', '6'],
            1048576, 1048576, 'M', none⟩],
        none⟩ := by
  refine ⟨?_, fun v W' => ⟨rfl, rfl, rfl, rfl, rfl⟩, by decide⟩
  simp only [vmain, scanWidth_ok hp BYTE]
  rw [secondPass_map zc sb _ hp]

/-- Witness for C6 on the inputs `1024` and `1048576`. -/
theorem claim_c6_witness :
    vmain false ' ' [['1', '0', '2', '4'], ['1', '0', '4', '8', '5', '7', '6']] =
      ⟨0, [⟨1024, ['0', 'x', '0', '0', '0', '0', '0', '4', '0', '0'],
            [' ', ' ', ' ', ' ', ' ', ' ', '1', '0', '2', '4'],
            1024, 1024, 'K', none⟩,
          ⟨1048576, ['0', 'x', '0', '0', '1', '0', '0', '0', '0', '0'],
            [' ', ' ', ' ', '1', '0', '4', '8', '5', '7', '6'],
            1048576, 1048576, 'M', none⟩],
        none⟩ :=
  (claim_c6 false ' ' [['1', '0', '2', '4'], ['1', '0', '4', '8', '5', '7', '6']]
    [1024, 1048576]
    (List.Forall₂.cons (by decide)
      (List.Forall₂.cons (by decide) List.Forall₂.nil))).2.2

/-- Claim C7: if any value argument fails to parse, the run exits with
status 1, reports the error (modelled by the `err` field), and prints no
lines at all — the failure is caught in the width-scanning first pass; if
all arguments parse, the exit status is 0. -/
theorem claim_c7 (sb : Bool) (zc : Char) (vals : List (List Char)) :
    ((∃ s ∈ vals, ∃ e, get_value s = .error e) →
      (vmain sb zc vals).exitCode = 1 ∧ (vmain sb zc vals).output = [] ∧
        (vmain sb zc vals).err ≠ none) ∧
    ((∀ s ∈ vals, ∃ v, get_value s = .ok v) →
      (vmain sb zc vals).exitCode = 0) := by
  constructor
  · intro h
    obtain ⟨e, he⟩ := scanWidth_err vals BYTE h
    simp [vmain, he]
  · intro h
    obtain ⟨w, hw⟩ := scanWidth_ok_ex vals BYTE h
    simp [vmain, hw]

/-- Witness for C7 on the failing input `"5X"`. -/
theorem claim_c7_witness :
    (vmain false ' ' [['5', 'X']]).exitCode = 1 ∧
      (vmain false ' ' [['5', 'X']]).output = [] :=
  ⟨((claim_c7 false ' ' [['5', 'X']]).1
      ⟨['5', 'X'], by decide, .invalidSuffix 1, by decide⟩).1,
    ((claim_c7 false ' ' [['5', 'X']]).1
      ⟨['5', 'X'], by decide, .invalidSuffix 1, by decide⟩).2.1⟩

/-- Claim C9: with no arguments at all, the run exits 0 and prints exactly
the 20 demonstration values, in order, with no binary column, every line at
Exa display width: 16 hex digits after `0x` and a 20-character decimal
field. -/
theorem claim_c9 :
    (xmain []).exitCode = 0 ∧
    (xmain []).output.map (fun l => l.value) =
      [8, 16, 64, 128, 256, 512, 1024, 4096, 16384, 65536, 1048576,
       16777216, 67108864, 268435456, 536870912, 1073741824, 4294967296,
       1099511627776, 1125899906842624, 1152921504606846976] ∧
    (xmain []).output.length = 20 ∧
    (xmain []).output.map (fun l => l.bin) = List.replicate 20 none ∧
    (xmain []).output.map (fun l => (l.hex.drop 2).length) =
      List.replicate 20 16 ∧
    (xmain []).output.map (fun l => l.dec.length) = List.replicate 20 20 := by
  decide

/-! ### Round-trip: parsing the program's own hex and decimal output -/

lemma digitVal_digitChar_16 (d : Nat) (hd : d < 16) :
    digitVal? 16 (digitChar d) = some d := by
  interval_cases d <;> decide

lemma digitVal_digitChar_10 (d : Nat) (hd : d < 10) :
    digitVal? 10 (digitChar d) = some d := by
  interval_cases d <;> decide

lemma digitChar_ne_zero (d : Nat) (h1 : 1 ≤ d) (h2 : d < 16) :
    digitChar d ≠ '0' := by
  interval_cases d <;> decide

lemma digitChar_not_space (d : Nat) (hd : d < 16) :
    isCSpace (digitChar d) = false := by
  interval_cases d <;> decide

lemma digitChar_not_sign (d : Nat) (hd : d < 16) :
    digitChar d ≠ '-' ∧ digitChar d ≠ '+' := by
  interval_cases d <;> decide

lemma digitsLoop_zero (b : Nat) : ∀ fuel acc, digitsLoop b fuel 0 acc = acc := by
  intro fuel acc
  cases fuel with
  | zero => rfl
  | succ f => simp [digitsLoop]

/-- The accumulator of `digitsLoop` is a suffix it never touches. -/
lemma digitsLoop_acc (b : Nat) : ∀ fuel n acc,
    digitsLoop b fuel n acc = digitsLoop b fuel n [] ++ acc := by
  intro fuel
  induction fuel with
  | zero => intro n acc; rfl
  | succ f ih =>
    intro n acc
    by_cases hn : n = 0
    · subst hn; simp [digitsLoop]
    · simp only [digitsLoop, if_neg hn]
      rw [ih (n / b) (digitChar (n % b) :: acc), ih (n / b) [digitChar (n % b)]]
      simp

/-- Every emitted character is a digit character below the base. -/
lemma digitsLoop_mem (b : Nat) (hb : 0 < b) : ∀ fuel n acc c,
    c ∈ digitsLoop b fuel n acc → c ∈ acc ∨ ∃ d, d < b ∧ c = digitChar d := by
  intro fuel
  induction fuel with
  | zero => intro n acc c hc; exact Or.inl hc
  | succ f ih =>
    intro n acc c hc
    by_cases hn : n = 0
    · subst hn
      simp only [digitsLoop, if_pos rfl] at hc
      exact Or.inl hc
    · simp only [digitsLoop, if_neg hn] at hc
      rcases ih (n / b) (digitChar (n % b) :: acc) c hc with hmem | hd
      · rcases List.mem_cons.1 hmem with rfl | hacc
        · exact Or.inr ⟨n % b, Nat.mod_lt n hb, rfl⟩
        · exact Or.inl hacc
      · exact Or.inr hd

lemma digitsVal_append_single (b : Nat) (ds : List Nat) (d : Nat) :
    digitsVal b (ds ++ [d]) = b * digitsVal b ds + d := by
  simp [digitsVal, List.foldl_append]

lemma digitsVal_zeros_append (b : Nat) (ds : List Nat) : ∀ k,
    digitsVal b (List.replicate k 0 ++ ds) = digitsVal b ds := by
  intro k
  induction k with
  | zero => simp
  | succ n ih =>
    simpa [List.replicate_succ, digitsVal, List.foldl_cons] using ih

/-- The digits emitted for `n` evaluate back to `n`. -/
lemma digitsLoop_val (b : Nat) (hb : 2 ≤ b)
    (hdv : ∀ d, d < b → digitVal? b (digitChar d) = some d) :
    ∀ fuel n, n ≤ fuel →
      digitsVal b ((digitsLoop b fuel n []).map
        (fun c => (digitVal? b c).getD 0)) = n := by
  intro fuel
  induction fuel with
  | zero =>
    intro n hn
    interval_cases n
    simp [digitsLoop, digitsVal]
  | succ f ih =>
    intro n hn
    by_cases hn0 : n = 0
    · subst hn0
      simp [digitsLoop_zero, digitsVal]
    · have hdiv : n / b ≤ f := by
        have := Nat.div_lt_self (Nat.pos_of_ne_zero hn0) (by omega : 1 < b)
        omega
      have hmod : n % b < b := Nat.mod_lt n (by omega)
      simp only [digitsLoop, if_neg hn0]
      rw [digitsLoop_acc, List.map_append, List.map_cons, List.map_nil,
        hdv (n % b) hmod]
      simp only [Option.getD_some]
      rw [digitsVal_append_single, ih (n / b) hdiv]
      exact Nat.div_add_mod n b

/-- For `n ≥ 1` the leading digit is nonzero. -/
lemma digitsLoop_head (b : Nat) (hb : 2 ≤ b) : ∀ fuel n, 1 ≤ n → n ≤ fuel →
    ∃ d t, digitsLoop b fuel n [] = digitChar d :: t ∧ 1 ≤ d ∧ d < b := by
  intro fuel
  induction fuel with
  | zero => intro n h1 h2; omega
  | succ f ih =>
    intro n h1 h2
    simp only [digitsLoop, if_neg (by omega : ¬ n = 0)]
    by_cases hnb : n < b
    · have h0 : n / b = 0 := Nat.div_eq_of_lt hnb
      rw [h0, digitsLoop_zero, Nat.mod_eq_of_lt hnb]
      exact ⟨n, [], rfl, h1, hnb⟩
    · have hdiv1 : 1 ≤ n / b := (Nat.one_le_div_iff (by omega)).2 (by omega)
      have hdiv2 : n / b ≤ f := by
        have := Nat.div_lt_self (by omega : 0 < n) (by omega : 1 < b)
        omega
      obtain ⟨d, t, ht, hd1, hd2⟩ := ih (n / b) hdiv1 hdiv2
      rw [digitsLoop_acc, ht]
      exact ⟨d, t ++ [digitChar (n % b)], by simp, hd1, hd2⟩

/-- `spanDigits` consumes a list entirely made of digits. -/
lemma span_of_all (b : Nat) : ∀ l : List Char,
    (∀ c ∈ l, (digitVal? b c).isSome) →
    spanDigits b l = (l.map (fun c => (digitVal? b c).getD 0), []) := by
  intro l
  induction l with
  | nil => intro _; rfl
  | cons a t ih =>
    intro h
    obtain ⟨d, hd⟩ := Option.isSome_iff_exists.1 (h a (by simp))
    simp [spanDigits, hd, ih (fun c hc => h c (by simp [hc]))]

lemma dropWhile_replicate_space (l : List Char) : ∀ k,
    (List.replicate k ' ' ++ l).dropWhile isCSpace = l.dropWhile isCSpace := by
  intro k
  induction k with
  | zero => simp
  | succ n ih =>
    simpa [List.replicate_succ, List.cons_append, List.dropWhile_cons,
      show isCSpace ' ' = true from rfl] using ih

lemma hasHexHead_pad (k : Nat) (D : List Char) (hne : D ≠ [])
    (hall : ∀ c ∈ D, (digitVal? 16 c).isSome) :
    hasHexHead (List.replicate k '0' ++ D) = true := by
  cases k with
  | zero =>
    cases D with
    | nil => exact absurd rfl hne
    | cons d t => simpa [hasHexHead] using hall d (by simp)
  | succ n => rfl

lemma isBinaryArg_0x (t : List Char) : isBinaryArg ('0' :: 'x' :: t) = false := by
  cases t <;> rfl

lemma isBinaryArg_ne_zero (c0 : Char) (h : c0 ≠ '0') :
    ∀ t, isBinaryArg (c0 :: t) = false := by
  intro t
  cases t with
  | nil => rfl
  | cons c1 t' =>
    cases t' with
    | nil => rfl
    | cons c2 t'' => simp [isBinaryArg, beq_iff_eq, h]

lemma toHexDigits_all (v : Nat) :
    ∀ c ∈ toHexDigits v, (digitVal? 16 c).isSome := by
  intro c hc
  rw [toHexDigits] at hc
  by_cases hv : v = 0
  · rw [if_pos hv] at hc
    simp only [List.mem_singleton] at hc
    subst hc
    decide
  · rw [if_neg hv] at hc
    rcases digitsLoop_mem 16 (by omega) v v [] c hc with h | ⟨d, hd, rfl⟩
    · simp at h
    · simp [digitVal_digitChar_16 d hd]

lemma toHexDigits_ne_nil (v : Nat) : toHexDigits v ≠ [] := by
  rw [toHexDigits]
  by_cases hv : v = 0
  · simp [hv]
  · rw [if_neg hv]
    obtain ⟨d, t, ht, -, -⟩ :=
      digitsLoop_head 16 (by omega) v v (by omega) le_rfl
    simp [ht]

lemma toHexDigits_val (v : Nat) :
    digitsVal 16 ((toHexDigits v).map (fun c => (digitVal? 16 c).getD 0)) = v := by
  rw [toHexDigits]
  by_cases hv : v = 0
  · subst hv; decide
  · rw [if_neg hv]
    exact digitsLoop_val 16 (by omega) digitVal_digitChar_16 v v le_rfl

lemma toDecDigits_all (v : Nat) :
    ∀ c ∈ toDecDigits v, (digitVal? 10 c).isSome := by
  intro c hc
  rw [toDecDigits] at hc
  by_cases hv : v = 0
  · rw [if_pos hv] at hc
    simp only [List.mem_singleton] at hc
    subst hc
    decide
  · rw [if_neg hv] at hc
    rcases digitsLoop_mem 10 (by omega) v v [] c hc with h | ⟨d, hd, rfl⟩
    · simp at h
    · simp [digitVal_digitChar_10 d hd]

lemma toDecDigits_val (v : Nat) :
    digitsVal 10 ((toDecDigits v).map (fun c => (digitVal? 10 c).getD 0)) = v := by
  rw [toDecDigits]
  by_cases hv : v = 0
  · subst hv; decide
  · rw [if_neg hv]
    exact digitsLoop_val 10 (by omega) digitVal_digitChar_10 v v le_rfl

lemma toDecDigits_head (v : Nat) (hv : 1 ≤ v) :
    ∃ d t, toDecDigits v = digitChar d :: t ∧ 1 ≤ d ∧ d < 10 := by
  rw [toDecDigits, if_neg (by omega : ¬ v = 0)]
  exact digitsLoop_head 10 (by omega) v v hv le_rfl

/-- `strtoull` on `0x` followed by hex digits: base 16 is detected, the
prefix consumed, and all digits read. -/
lemma strtoull_hexform (L : List Char) (hhh : hasHexHead L = true)
    (hall : ∀ c ∈ L, (digitVal? 16 c).isSome) :
    strtoull ('0' :: 'x' :: L) =
      (min (digitsVal 16 (L.map (fun c => (digitVal? 16 c).getD 0))) UMAX,
        []) := by
  have hne : L ≠ [] := by
    cases L with
    | nil => simp [hasHexHead] at hhh
    | cons a t => simp
  have hdb : detectBase ('0' :: 'x' :: L) = (16, L) := by
    simp [detectBase, hhh]
  have hspan := span_of_all 16 L hall
  have hds : L.map (fun c => (digitVal? 16 c).getD 0) ≠ [] := by
    intro hc
    rw [List.map_eq_nil] at hc
    exact hne hc
  rw [strtoull, strtoullPre,
    show ('0' :: 'x' :: L).dropWhile isCSpace = '0' :: 'x' :: L from rfl,
    show readSign ('0' :: 'x' :: L) = (false, '0' :: 'x' :: L) from rfl,
    hdb]
  simp only [hspan, if_neg hds, Bool.false_eq_true, if_false]

/-- `strtoull` on space padding followed by the decimal digits of a positive
value: the spaces are skipped, base 10 detected, all digits read. -/
lemma strtoull_decform_pos (v : Nat) (hv : 1 ≤ v) (k : Nat) :
    strtoull (List.replicate k ' ' ++ toDecDigits v) = (min v UMAX, []) := by
  obtain ⟨d, t, ht, hd1, hd2⟩ := toDecDigits_head v hv
  have hdw : (List.replicate k ' ' ++ toDecDigits v).dropWhile isCSpace =
      toDecDigits v := by
    rw [dropWhile_replicate_space, ht]
    simp [List.dropWhile_cons, digitChar_not_space d (by omega)]
  have hrs : readSign (toDecDigits v) = (false, toDecDigits v) := by
    rw [ht]
    simp [readSign, (digitChar_not_sign d (by omega)).1,
      (digitChar_not_sign d (by omega)).2]
  have hdb : detectBase (toDecDigits v) = (10, toDecDigits v) := by
    rw [ht]
    cases t with
    | nil => simp [detectBase, digitChar_ne_zero d hd1 (by omega)]
    | cons c1 t' => simp [detectBase, digitChar_ne_zero d hd1 (by omega)]
  have hspan := span_of_all 10 (toDecDigits v) (toDecDigits_all v)
  have hds : (toDecDigits v).map (fun c => (digitVal? 10 c).getD 0) ≠ [] := by
    intro hc
    rw [List.map_eq_nil] at hc
    exact absurd (hc ▸ ht) (by simp)
  rw [strtoull, strtoullPre, hdw, hrs, hdb]
  simp only [hspan, if_neg hds, Bool.false_eq_true, if_false,
    toDecDigits_val v]

/-- `strtoull` on space padding followed by `"0"`: octal zero. -/
lemma strtoull_decform_zero (k : Nat) :
    strtoull (List.replicate k ' ' ++ toDecDigits 0) = (0, []) := by
  have h1 : (List.replicate k ' ' ++ toDecDigits 0).dropWhile isCSpace =
      ['0'] := by
    rw [dropWhile_replicate_space]
    rfl
  rw [strtoull, strtoullPre, h1]
  rfl

/-- Parsing the program's own hex field recovers the value. -/
lemma get_value_format_hex (v wd : Nat) (hv : v < 2 ^ 64) :
    get_value (format_hex v wd) = .ok v := by
  have hfh : format_hex v wd = '0' :: 'x' ::
      (List.replicate ((data wd).width_hex - (toHexDigits v).length) '0' ++
        toHexDigits v) := rfl
  have hallL : ∀ c ∈ List.replicate
      ((data wd).width_hex - (toHexDigits v).length) '0' ++ toHexDigits v,
      (digitVal? 16 c).isSome := by
    intro c hc
    rcases List.mem_append.1 hc with h | h
    · rw [List.eq_of_mem_replicate h]; decide
    · exact toHexDigits_all v c h
  have hhh := hasHexHead_pad ((data wd).width_hex - (toHexDigits v).length)
    (toHexDigits v) (toHexDigits_ne_nil v) (toHexDigits_all v)
  have hst := strtoull_hexform _ hhh hallL
  have hval : digitsVal 16 ((List.replicate
      ((data wd).width_hex - (toHexDigits v).length) '0' ++
        toHexDigits v).map (fun c => (digitVal? 16 c).getD 0)) = v := by
    rw [List.map_append, List.map_replicate,
      show (digitVal? 16 '0').getD 0 = 0 from rfl,
      digitsVal_zeros_append, toHexDigits_val]
  have h2 : (2 : Nat) ^ 64 = 18446744073709551616 := by norm_num
  have hmin : min v UMAX = v :=
    min_eq_left (by rw [show UMAX = 18446744073709551615 from rfl]; omega)
  rw [hfh, get_value]
  rw [if_neg (by rw [isBinaryArg_0x]; exact Bool.false_ne_true)]
  rw [hst]
  simp only [hval, hmin]

/-- Parsing the program's own decimal field recovers the value. -/
lemma get_value_format_dec (v wd : Nat) (hv : v < 2 ^ 64) :
    get_value (format_dec v wd) = .ok v := by
  have hfd : format_dec v wd =
      List.replicate ((data wd).width_dec - (toDecDigits v).length) ' ' ++
        toDecDigits v := rfl
  by_cases hv0 : v = 0
  · subst hv0
    have hW : 4 ≤ (data wd).width_dec := by
      rcases wd with _ | _ | _ | _ | _ | _ | wd'
      · decide
      · decide
      · decide
      · decide
      · decide
      · decide
      · show 4 ≤ 20
        norm_num
    have hlen : (toDecDigits 0).length = 1 := rfl
    obtain ⟨k', hk'⟩ : ∃ k',
        (data wd).width_dec - (toDecDigits 0).length = k' + 1 :=
      ⟨(data wd).width_dec - (toDecDigits 0).length - 1, by omega⟩
    have hbin : isBinaryArg (format_dec 0 wd) = false := by
      rw [hfd, hk', List.replicate_succ]
      exact isBinaryArg_ne_zero ' ' (by decide) _
    have hst := strtoull_decform_zero
      ((data wd).width_dec - (toDecDigits 0).length)
    rw [hfd] at hbin ⊢
    rw [get_value, if_neg (by rw [hbin]; exact Bool.false_ne_true), hst]
  · have h1 : 1 ≤ v := by omega
    obtain ⟨d, t, ht, hd1, hd2⟩ := toDecDigits_head v h1
    have hbin : isBinaryArg (List.replicate
        ((data wd).width_dec - (toDecDigits v).length) ' ' ++
          toDecDigits v) = false := by
      cases hck : (data wd).width_dec - (toDecDigits v).length with
      | zero =>
        simp only [List.replicate, List.nil_append]
        rw [ht]
        exact isBinaryArg_ne_zero _ (digitChar_ne_zero d hd1 (by omega)) t
      | succ n =>
        rw [List.replicate_succ]
        exact isBinaryArg_ne_zero ' ' (by decide) _
    have hst := strtoull_decform_pos v h1
      ((data wd).width_dec - (toDecDigits v).length)
    have hmin : min v UMAX = v :=
      min_eq_left (by
        rw [show UMAX = 18446744073709551615 from rfl]
        have h2 : (2 : Nat) ^ 64 = 18446744073709551616 := by norm_num
        omega)
    rw [hfd, get_value, if_neg (by rw [hbin]; exact Bool.false_ne_true), hst]
    simp only [hmin]

/-- Claim C5: for every 64-bit value and display band, re-parsing the
program's own zero-padded hex rendering (`0x...`) yields the value back, and
re-parsing its space-padded decimal rendering yields the value back. -/
theorem claim_c5 (v wd : Nat) (hv : v < 2 ^ 64) (_hw : wd < 7) :
    get_value (format_hex v wd) = .ok v ∧
    get_value (format_dec v wd) = .ok v :=
  ⟨get_value_format_hex v wd hv, get_value_format_dec v wd hv⟩

/-- Witness for C5 at `v = 1024` with the Mega display band. -/
theorem claim_c5_witness :
    get_value (format_hex 1024 2) = .ok 1024 ∧
    get_value (format_dec 1024 2) = .ok 1024 :=
  claim_c5 1024 2 (by norm_num) (by norm_num)

end Xvalues
